import Mathlib

/-!
Shallow embedding of the StudyCoach backend's heuristic text-analysis
pipeline (`src/main.py`) and proofs about its specification.

Strings are modelled as Lean `String` (a list of Unicode code points,
matching Python's `str` and `len`).  The regular expressions of the source
are modelled as explicit character scanners over `List Char`:

* `clean_text`      models `re.sub(r"\s+", " ", t).strip()`;
* `naive_sentences` models `re.split(r'(?<=[\.\!\?؟])\s+', text)`
  followed by the strip/length filter;
* `tokensAux`       models `re.findall(r"[A-Za-z؀-ۿ][A-Za-z0-9_؀-ۿ'-]*", ...)`;
* `searchWWAux`     models `re.search(rf"\b{t}\b", s, re.IGNORECASE)` for a
  lower-case term `t` (Python's `\w` is modelled as ASCII alphanumerics,
  underscore, and the U+0600–U+06FF block used by the tokenizer).

`collections.Counter(...).most_common(k)` keeps distinct keys in
first-insertion order and sorts them stably by descending count; it is
modelled by `counterItems` and the stable insertion sort `sortDescBy`
(a stable descending sort is unique as a function, so this agrees with
CPython's sort).  The calls to `random.shuffle` are modelled by an
injected family `shuffle : Nat → List String → List String` of list
transformations, one per call site occurrence; genuine randomness always
produces permutations, which theorems assume where needed.
-/

/-- Python `\s` restricted to the ASCII whitespace characters. -/
def isPySpace (c : Char) : Bool :=
  c == ' ' || c == '\t' || c == '\n' || c == '\r' ||
    decide (c.toNat = 11) || decide (c.toNat = 12)

/-- The sentence-terminal punctuation of `naive_sentences`:
`.`, `!`, `?` and the Arabic question mark U+061F. -/
def isTerminator (c : Char) : Bool :=
  c == '.' || c == '!' || c == '?' || decide (c.toNat = 0x61F)

/-- First character of a token: `[A-Za-z؀-ۿ]`. -/
def isWordStart (c : Char) : Bool :=
  (decide (65 ≤ c.toNat) && decide (c.toNat ≤ 90)) ||
  (decide (97 ≤ c.toNat) && decide (c.toNat ≤ 122)) ||
  (decide (0x600 ≤ c.toNat) && decide (c.toNat ≤ 0x6FF))

/-- Continuation character of a token: `[A-Za-z0-9_؀-ۿ'-]`. -/
def isWordCont (c : Char) : Bool :=
  isWordStart c || (decide (48 ≤ c.toNat) && decide (c.toNat ≤ 57)) ||
  c == '_' || decide (c.toNat = 39) || c == '-'

/-- Python `\w` (word character for `\b` boundaries), restricted to the
scripts the tokenizer can produce: ASCII alphanumerics, `_`, and the
U+0600–U+06FF block. -/
def isPyWordChar (c : Char) : Bool :=
  (decide (65 ≤ c.toNat) && decide (c.toNat ≤ 90)) ||
  (decide (97 ≤ c.toNat) && decide (c.toNat ≤ 122)) ||
  (decide (48 ≤ c.toNat) && decide (c.toNat ≤ 57)) ||
  c == '_' ||
  (decide (0x600 ≤ c.toNat) && decide (c.toNat ≤ 0x6FF))

/-- One pass of `re.sub(r"\s+", " ", ·)`: the first character of every
whitespace run becomes a single `' '`, the rest of the run is dropped.
The flag records whether the previous character was whitespace. -/
def collapseAux : Bool → List Char → List Char
  | _, [] => []
  | prevWs, c :: cs =>
    if isPySpace c then
      if prevWs then collapseAux true cs
      else ' ' :: collapseAux true cs
    else c :: collapseAux false cs

/-- Python `str.strip()` on a character list. -/
def trimChars (l : List Char) : List Char :=
  ((l.dropWhile isPySpace).reverse.dropWhile isPySpace).reverse

/-- `clean_text` from `src/main.py`: collapse whitespace runs to a single
space, then strip. -/
def clean_text (t : String) : String :=
  ⟨trimChars (collapseAux false t.data)⟩

/-- Python `str.strip()` at the `String` level. -/
def pyStrip (s : String) : String :=
  ⟨trimChars s.data⟩

/-- `re.split(r'(?<=[\.\!\?؟])\s+', text)`: a whitespace run splits
exactly when the character immediately before it is a terminator.
`prev` is the previously scanned character, `inSep` whether we are inside
the whitespace run of a separator, `acc` the current segment reversed. -/
def sentSplitAux : Char → Bool → List Char → List Char → List (List Char)
  | _, _, acc, [] => [acc.reverse]
  | prev, inSep, acc, c :: cs =>
    if isPySpace c then
      if inSep then sentSplitAux c true acc cs
      else if isTerminator prev then acc.reverse :: sentSplitAux c true [] cs
      else sentSplitAux c false (c :: acc) cs
    else sentSplitAux c false (c :: acc) cs

/-- `naive_sentences` from `src/main.py`: split on sentence boundaries,
strip each part, keep only parts whose stripped length exceeds 30. -/
def naive_sentences (text : String) : List String :=
  (((sentSplitAux ' ' false [] text.data).map trimChars).filter
      (fun s => decide (30 < s.length))).map (fun l => (⟨l⟩ : String))

/-- `re.findall` for the token pattern: a maximal run starting with a
word-start character and continuing with continuation characters.
`acc` holds the reversed current token (empty = not inside a token);
a character that cannot continue a token can never start one, since
every start character is also a continuation character. -/
def tokensAux : List Char → List Char → List (List Char)
  | acc, [] => if acc.isEmpty then [] else [acc.reverse]
  | acc, c :: cs =>
    if acc.isEmpty then
      if isWordStart c then tokensAux [c] cs else tokensAux [] cs
    else
      if isWordCont c then tokensAux (c :: acc) cs
      else acc.reverse :: tokensAux [] cs

/-- The stop-word set of `top_terms` (the source's set literal repeats
`"also"` and `"into"`; a set ignores the repetition). -/
def stopWords : List String :=
  ["this", "that", "with", "from", "your", "about", "these", "those",
   "which", "their", "have", "will", "there", "here", "where", "when",
   "then", "into", "over", "under", "also", "such", "than", "only",
   "very", "more", "most", "much", "many", "some", "been", "were",
   "what", "shall", "should", "could", "would", "might", "must",
   "upon", "between", "within"]

/-- The list `common` inside `top_terms`: tokens of the text, filtered to
length `> 3`, lower-cased, with stop words removed. -/
def commonWords (text : String) : List String :=
  (((tokensAux [] text.data).filter (fun w => decide (3 < w.length))).map
      (fun w => (⟨w.map Char.toLower⟩ : String))).filter
    (fun w => !(stopWords.contains w))

/-- Distinct elements of a list in first-occurrence order: the key order
of `collections.Counter` built from the list. -/
def firstOccs : List String → List String
  | [] => []
  | w :: ws => w :: (firstOccs ws).filter (fun v => v != w)

/-- `collections.Counter(ws).items()`: distinct elements in
first-occurrence order, each with its total count. -/
def counterItems (ws : List String) : List (String × Nat) :=
  (firstOccs ws).map (fun w => (w, ws.count w))

/-- Insert an element into a list sorted by `key` descending, after every
element of key `≥` its own (the placement a stable descending sort gives
to an element originally preceding the list's elements). -/
def insertDesc (key : α → Nat) (p : α) : List α → List α
  | [] => [p]
  | q :: qs => if key q ≤ key p then p :: q :: qs else q :: insertDesc key p qs

/-- Stable sort by `key` descending (insertion sort).  Stable descending
sorts are unique as functions, so this models both Python's
`sorted(..., key=..., reverse=True)` and `heapq.nlargest` as used by
`Counter.most_common`. -/
def sortDescBy (key : α → Nat) : List α → List α
  | [] => []
  | p :: ps => insertDesc key p (sortDescBy key ps)

/-- `top_terms` from `src/main.py`. -/
def top_terms (text : String) (k : Nat) : List String :=
  ((sortDescBy Prod.snd (counterItems (commonWords text))).take k).map Prod.fst

/-- The per-sentence score of `build_summary_blocks`: the number of tokens
of the lower-cased sentence that belong to the term set. -/
def scoreOf (terms : List String) (s : String) : Nat :=
  ((tokensAux [] (s.data.map Char.toLower)).map (fun w => (⟨w⟩ : String))).countP
    (fun w => terms.contains w)

/-- The scored sentence list of `build_summary_blocks`
(term set `top_terms text 30`; Python set membership is list membership). -/
def scoredOf (text : String) : List (Nat × String) :=
  (naive_sentences text).map (fun s => (scoreOf (top_terms text 30) s, s))

/-- The indexed view of `scoredOf`, used to state stability of the sort
(each sentence tagged with its original position). -/
def escoredOf (text : String) : List (Nat × Nat × String) :=
  ((naive_sentences text).enum).map
    (fun p => (scoreOf (top_terms text 30) p.2, p.1, p.2))

/-- Python `top[i:i+B]` chunking for a positive block size `B`:
successive chunks of `B` elements (the last one possibly shorter).
Fuel-based structural recursion (the fuel bounds the list length), so
that the function also reduces definitionally. -/
def chunkListF (B : Nat) : Nat → List α → List (List α)
  | _, [] => []
  | 0, _ :: _ => []
  | fuel + 1, c :: cs => (c :: cs.take (B - 1)) :: chunkListF B fuel (cs.drop (B - 1))

def chunkList (B : Nat) (l : List α) : List (List α) :=
  chunkListF B l.length l

structure SummaryBlock where
  title : String
  bullets : List String
deriving DecidableEq

structure MCQ where
  q : String
  choices : List String
  answer : Nat
  explain : Option String
deriving DecidableEq

structure AIResponse where
  ok : Bool
  summary_blocks : List SummaryBlock
  mcq : List MCQ
deriving DecidableEq

structure HTTPErr where
  status : Nat
  detail : String
deriving DecidableEq

/-- The single fallback block of `build_summary_blocks`. -/
def noteBlock : SummaryBlock :=
  ⟨"ملحوظة", ["تعذّر استخراج جمل كافية من الملف."]⟩

/-- `build_summary_blocks` from `src/main.py`. -/
def build_summary_blocks (text : String) (max_blocks bullets_per_block : Nat) :
    List SummaryBlock :=
  if (naive_sentences text).isEmpty then [noteBlock]
  else
    let top := ((sortDescBy Prod.fst (scoredOf text)).take
        (max_blocks * bullets_per_block)).map Prod.snd
    ((chunkList bullets_per_block top).take max_blocks).enum.map
      (fun p => ⟨"أفكار رئيسية #" ++ toString (p.1 + 1), p.2.map clean_text⟩)

def optIsWord : Option Char → Bool
  | none => false
  | some c => isPyWordChar c

/-- `re.search(rf"\b{t}\b", s)` for a pattern `t` on an already
lower-cased character list `s`: try every start position; a match needs
`t` as a prefix of the remaining input with a `\b` boundary on each side. -/
def searchWWAux (t : List Char) : Option Char → List Char → Bool
  | prev, s =>
    (t.isPrefixOf s && (optIsWord prev != optIsWord t.head?) &&
        (optIsWord t.getLast? != optIsWord (s.drop t.length).head?)) ||
      (match s with
       | [] => false
       | c :: cs => searchWWAux t (some c) cs)

/-- Case-insensitive whole-word search of term `t` (already lower case)
inside sentence `s`, as in `build_mcq`. -/
def wholeWordSearch (t s : String) : Bool :=
  searchWWAux t.data none (s.data.map Char.toLower)

/-- The first fallback question of `build_mcq` (too few terms). -/
def mcqFallback1 : MCQ :=
  ⟨"سؤال تجريبي: ما هي أفضل طريقة لاستخلاص الأفكار الرئيسية؟",
   ["القراءة السريعة", "التلخيص الآلي", "مراجعة الأسئلة", "كل ما سبق"],
   3, some "الدمج بين أكثر من طريقة يرفع جودة الاستيعاب."⟩

/-- The second fallback question of `build_mcq` (no matches found). -/
def mcqFallback2 : MCQ :=
  ⟨"سؤال عام: أي مما يلي يُعد فائدة للتلخيص؟",
   ["تقليل الوقت", "فهم أعمق", "تثبيت المعلومة", "كل ما سبق"],
   3, some "التلخيص الجيد يجمع كل ما سبق."⟩

/-- The main loop of `build_mcq`: iterate over candidate terms, skipping
used terms and terms with no matching sentence; otherwise build the
choice set (correct term plus three shuffled distractors, shuffled
again) and record the question.  `i` counts emitted questions, `c`
numbers the `random.shuffle` call sites. -/
def mcqLoop (shuffle : Nat → List String → List String)
    (sents terms : List String) (n : Nat) :
    List String → List String → Nat → Nat → List MCQ
  | [], _, _, _ => []
  | t :: ts, used, i, c =>
    if used.contains t then mcqLoop shuffle sents terms n ts used i c
    else
      match sents.find? (fun s => wholeWordSearch t s) with
      | none => mcqLoop shuffle sents terms n ts used i c
      | some sent =>
        let d3 := (shuffle c ((terms.filter (fun d => d != t)).take 12)).take 3
        let choices := shuffle (c + 1) (t :: d3)
        let q : MCQ :=
          ⟨"اختر المصطلح الذي يكمّل الفكرة: «" ++ clean_text sent ++ "»",
           choices, choices.indexOf t,
           some ("المصطلح المناسب في السياق هو «" ++ t ++ "».")⟩
        if n ≤ i + 1 then [q]
        else q :: mcqLoop shuffle sents terms n ts (t :: used) (i + 1) (c + 2)

/-- `build_mcq` from `src/main.py`, with the random source injected
(the source's local variables `terms` and `qs` are inlined). -/
def build_mcq (shuffle : Nat → List String → List String)
    (text : String) (n : Nat) : List MCQ :=
  if (top_terms text 50).length < 6 then [mcqFallback1]
  else
    if (mcqLoop shuffle (naive_sentences text) (top_terms text 50) n
        (top_terms text 50) [] 0 0).isEmpty
      then [mcqFallback2]
      else mcqLoop shuffle (naive_sentences text) (top_terms text 50) n
        (top_terms text 50) [] 0 0

/-- The insufficient-content error raised by `make_response_from_text`. -/
def insufficientErr : HTTPErr :=
  ⟨422, "تعذّر استخراج نص كافٍ من الملف."⟩

/-- `make_response_from_text` from `src/main.py`: normalize, reject short
text with HTTP 422, otherwise run the summarizer and the MCQ generator. -/
def make_response_from_text (shuffle : Nat → List String → List String)
    (text : String) : Except HTTPErr AIResponse :=
  let t := clean_text text
  if t.length < 80 then Except.error insufficientErr
  else Except.ok ⟨true, build_summary_blocks t 4 4, build_mcq shuffle t 6⟩

/-- The identity shuffle, used to instantiate witnesses. -/
def idShuffle : Nat → List String → List String := fun _ l => l

/-! ## Basic properties of the whitespace machinery -/

theorem collapseAux_length_le (b : Bool) (l : List Char) :
    (collapseAux b l).length ≤ l.length := by
  induction l generalizing b with
  | nil => simp [collapseAux]
  | cons c cs ih =>
    simp only [collapseAux]
    cases h : isPySpace c with
    | true =>
      cases b with
      | true => simpa using Nat.le_succ_of_le (ih true)
      | false => simpa using Nat.succ_le_succ (ih true)
    | false => simpa using Nat.succ_le_succ (ih false)

theorem trimChars_length_le (l : List Char) : (trimChars l).length ≤ l.length := by
  unfold trimChars
  calc (((l.dropWhile isPySpace).reverse.dropWhile isPySpace).reverse).length
      = ((l.dropWhile isPySpace).reverse.dropWhile isPySpace).length := by
        simp
    _ ≤ (l.dropWhile isPySpace).reverse.length :=
        (List.dropWhile_sublist _).length_le
    _ = (l.dropWhile isPySpace).length := by simp
    _ ≤ l.length := (List.dropWhile_sublist _).length_le

theorem clean_text_length_le (t : String) : (clean_text t).length ≤ t.length :=
  le_trans (trimChars_length_le _) (collapseAux_length_le false t.data)

theorem head?_dropWhile_not (p : α → Bool) (l : List α) :
    ∀ c, (l.dropWhile p).head? = some c → p c = false := by
  induction l with
  | nil => simp
  | cons a as ih =>
    intro c hc
    rw [List.dropWhile_cons] at hc
    by_cases h : p a
    · rw [if_pos h] at hc; exact ih c hc
    · rw [if_neg h] at hc
      simp only [List.head?_cons, Option.some_inj] at hc
      subst hc
      exact Bool.eq_false_iff.2 h

theorem dropWhile_eq_self_of_head (p : α → Bool) (l : List α)
    (h : ∀ c, l.head? = some c → p c = false) : l.dropWhile p = l := by
  cases l with
  | nil => rfl
  | cons a as => simp [List.dropWhile_cons, h a rfl]

theorem trimChars_getLast?_not (l : List Char) :
    ∀ c, (trimChars l).getLast? = some c → isPySpace c = false := by
  intro c hc
  unfold trimChars at hc
  rw [List.getLast?_reverse] at hc
  exact head?_dropWhile_not _ _ c hc

theorem trimChars_head?_not (l : List Char) :
    ∀ c, (trimChars l).head? = some c → isPySpace c = false := by
  intro c hc
  unfold trimChars at hc
  rw [List.head?_reverse] at hc
  set m := (l.dropWhile isPySpace).reverse with hm
  rcases he : m.dropWhile isPySpace with _ | ⟨a, as⟩
  · rw [he] at hc; simp at hc
  · have h1 : m.getLast? = (m.dropWhile isPySpace).getLast? := by
      conv_lhs => rw [← List.takeWhile_append_dropWhile isPySpace m]
      exact List.getLast?_append_of_ne_nil _ (by rw [he]; exact List.cons_ne_nil a as)
    rw [← h1] at hc
    rw [hm, List.getLast?_reverse] at hc
    exact head?_dropWhile_not _ _ c hc

theorem trimChars_idem (l : List Char) : trimChars (trimChars l) = trimChars l := by
  have h1 : (trimChars l).dropWhile isPySpace = trimChars l :=
    dropWhile_eq_self_of_head _ _ (trimChars_head?_not l)
  show ((((trimChars l).dropWhile isPySpace).reverse.dropWhile isPySpace)).reverse
      = trimChars l
  rw [h1]
  have h2 : (trimChars l).reverse.dropWhile isPySpace = (trimChars l).reverse := by
    refine dropWhile_eq_self_of_head _ _ ?_
    intro c hc
    rw [List.head?_reverse] at hc
    exact trimChars_getLast?_not l c hc
  rw [h2, List.reverse_reverse]

/-! ## The stable descending insertion sort -/

theorem mem_insertDesc (key : α → Nat) (p x : α) (l : List α) :
    x ∈ insertDesc key p l ↔ x = p ∨ x ∈ l := by
  induction l with
  | nil => simp [insertDesc]
  | cons q qs ih =>
    simp only [insertDesc]
    by_cases h : key q ≤ key p
    · rw [if_pos h]
      simp [List.mem_cons]
    · rw [if_neg h]
      simp only [List.mem_cons, ih]
      tauto

theorem insertDesc_perm (key : α → Nat) (p : α) (l : List α) :
    List.Perm (insertDesc key p l) (p :: l) := by
  induction l with
  | nil => exact List.Perm.refl _
  | cons q qs ih =>
    simp only [insertDesc]
    by_cases h : key q ≤ key p
    · rw [if_pos h]
    · rw [if_neg h]
      exact List.Perm.trans (ih.cons q) (List.Perm.swap p q qs)

theorem sortDescBy_perm (key : α → Nat) (l : List α) :
    List.Perm (sortDescBy key l) l := by
  induction l with
  | nil => exact List.Perm.refl _
  | cons p ps ih =>
    exact List.Perm.trans (insertDesc_perm key p _) (ih.cons p)

theorem insertDesc_sorted (key : α → Nat) (p : α) (l : List α)
    (hl : l.Pairwise (fun a b => key b ≤ key a)) :
    (insertDesc key p l).Pairwise (fun a b => key b ≤ key a) := by
  induction l with
  | nil => simp [insertDesc]
  | cons q qs ih =>
    rcases List.pairwise_cons.1 hl with ⟨hq, hqs⟩
    simp only [insertDesc]
    by_cases h : key q ≤ key p
    · rw [if_pos h]
      refine List.pairwise_cons.2 ⟨?_, hl⟩
      intro b hb
      rcases List.mem_cons.1 hb with rfl | hb
      · exact h
      · exact le_trans (hq b hb) h
    · rw [if_neg h]
      refine List.pairwise_cons.2 ⟨?_, ih hqs⟩
      intro b hb
      rcases (mem_insertDesc key p b qs).1 hb with rfl | hb
      · omega
      · exact hq b hb

theorem sortDescBy_sorted (key : α → Nat) (l : List α) :
    (sortDescBy key l).Pairwise (fun a b => key b ≤ key a) := by
  induction l with
  | nil => simp [sortDescBy]
  | cons p ps ih => exact insertDesc_sorted key p _ ih

theorem insertDesc_stable (key idx : α → Nat) (p : α) (l : List α)
    (hl : l.Pairwise (fun a b => key b ≤ key a ∧ (key a = key b → idx a < idx b)))
    (hp : ∀ q ∈ l, key q = key p → idx p < idx q) :
    (insertDesc key p l).Pairwise
      (fun a b => key b ≤ key a ∧ (key a = key b → idx a < idx b)) := by
  induction l with
  | nil => simp [insertDesc]
  | cons q qs ih =>
    rcases List.pairwise_cons.1 hl with ⟨hq, hqs⟩
    simp only [insertDesc]
    by_cases h : key q ≤ key p
    · rw [if_pos h]
      refine List.pairwise_cons.2 ⟨?_, hl⟩
      intro b hb
      rcases List.mem_cons.1 hb with rfl | hb
      · exact ⟨h, fun he => hp b (List.mem_cons_self ..) he.symm⟩
      · exact ⟨le_trans (hq b hb).1 h,
          fun he => hp b (List.mem_cons_of_mem _ hb) he.symm⟩
    · rw [if_neg h]
      refine List.pairwise_cons.2
        ⟨?_, ih hqs (fun r hr he => hp r (List.mem_cons_of_mem _ hr) he)⟩
      intro b hb
      rcases (mem_insertDesc key p b qs).1 hb with rfl | hb
      · exact ⟨by omega, fun he => absurd he (by omega)⟩
      · exact hq b hb

theorem sortDescBy_stable (key idx : α → Nat) (l : List α)
    (h : l.Pairwise (fun a b => idx a < idx b)) :
    (sortDescBy key l).Pairwise
      (fun a b => key b ≤ key a ∧ (key a = key b → idx a < idx b)) := by
  induction l with
  | nil => simp [sortDescBy]
  | cons p ps ih =>
    rcases List.pairwise_cons.1 h with ⟨hp, hps⟩
    refine insertDesc_stable key idx p _ (ih hps) ?_
    intro q hq _
    exact hp q ((sortDescBy_perm key ps).mem_iff.1 hq)

theorem insertDesc_map (key1 : α → Nat) (key2 : β → Nat) (f : α → β)
    (hk : ∀ a, key2 (f a) = key1 a) (p : α) (l : List α) :
    insertDesc key2 (f p) (l.map f) = (insertDesc key1 p l).map f := by
  induction l with
  | nil => simp [insertDesc]
  | cons q qs ih =>
    simp only [List.map_cons, insertDesc, hk]
    by_cases h : key1 q ≤ key1 p
    · rw [if_pos h, if_pos h]
      simp
    · rw [if_neg h, if_neg h]
      simp [ih]

theorem sortDescBy_map (key1 : α → Nat) (key2 : β → Nat) (f : α → β)
    (hk : ∀ a, key2 (f a) = key1 a) (l : List α) :
    sortDescBy key2 (l.map f) = (sortDescBy key1 l).map f := by
  induction l with
  | nil => rfl
  | cons p ps ih =>
    simp only [List.map_cons, sortDescBy, ih]
    exact insertDesc_map key1 key2 f hk p _

theorem insertDesc_cons_of_max (key : α → Nat) (p : α) (l : List α)
    (h : ∀ q ∈ l, key q ≤ key p) :
    ∃ rest, insertDesc key p l = p :: rest := by
  cases l with
  | nil => exact ⟨[], rfl⟩
  | cons q qs =>
    exact ⟨q :: qs, by simp [insertDesc, h q (List.mem_cons_self ..)]⟩

theorem sortDescBy_cons_of_max (key : α → Nat) (p : α) (ps : List α)
    (h : ∀ q ∈ ps, key q ≤ key p) :
    ∃ rest, sortDescBy key (p :: ps) = p :: rest := by
  have h' : ∀ q ∈ sortDescBy key ps, key q ≤ key p := fun q hq =>
    h q ((sortDescBy_perm key ps).mem_iff.1 hq)
  simpa [sortDescBy] using insertDesc_cons_of_max key p _ h'

/-! ## Properties of the Counter model -/

theorem mem_firstOccs (v : String) (l : List String) : v ∈ firstOccs l ↔ v ∈ l := by
  induction l with
  | nil => simp [firstOccs]
  | cons w ws ih =>
    simp only [firstOccs, List.mem_cons, List.mem_filter, bne_iff_ne, ne_eq]
    constructor
    · rintro (rfl | ⟨hv, _⟩)
      · exact Or.inl rfl
      · exact Or.inr (ih.1 hv)
    · rintro (rfl | hv)
      · exact Or.inl rfl
      · by_cases hvw : v = w
        · exact Or.inl hvw
        · exact Or.inr ⟨ih.2 hv, hvw⟩

theorem nodup_firstOccs (l : List String) : (firstOccs l).Nodup := by
  induction l with
  | nil => simp [firstOccs]
  | cons w ws ih =>
    refine List.nodup_cons.2 ⟨?_, ih.filter _⟩
    intro hmem
    have := (List.mem_filter.1 hmem).2
    simp at this

theorem firstOccs_pairwise_indexOf (l : List String) :
    (firstOccs l).Pairwise (fun w v => l.indexOf w < l.indexOf v) := by
  induction l with
  | nil => simp [firstOccs]
  | cons w ws ih =>
    simp only [firstOccs]
    refine List.pairwise_cons.2 ⟨?_, ?_⟩
    · intro v hv
      have hvne : v ≠ w := by
        have := (List.mem_filter.1 hv).2
        simpa using this
      rw [List.indexOf_cons_self, List.indexOf_cons_ne _ (fun h => hvne h.symm)]
      exact Nat.succ_pos _
    · have hsub : ((firstOccs ws).filter (fun v => v != w)).Sublist (firstOccs ws) :=
        List.filter_sublist _
      refine ((ih.sublist hsub).imp_of_mem ?_)
      intro a b ha hb hab
      have hane : a ≠ w := by simpa using (List.mem_filter.1 ha).2
      have hbne : b ≠ w := by simpa using (List.mem_filter.1 hb).2
      rw [List.indexOf_cons_ne _ (fun h => hane h.symm),
        List.indexOf_cons_ne _ (fun h => hbne h.symm)]
      omega

theorem counterItems_mem (ws : List String) {p : String × Nat}
    (hp : p ∈ counterItems ws) : p.1 ∈ ws ∧ p.2 = ws.count p.1 := by
  rcases List.mem_map.1 hp with ⟨w, hw, rfl⟩
  exact ⟨(mem_firstOccs w ws).1 hw, rfl⟩

theorem counterItems_map_fst (ws : List String) :
    (counterItems ws).map Prod.fst = firstOccs ws := by
  rw [counterItems, List.map_map]
  exact List.map_id _

theorem counterItems_pairwise (ws : List String) :
    (counterItems ws).Pairwise (fun p q => ws.indexOf p.1 < ws.indexOf q.1) :=
  List.pairwise_map.2 (firstOccs_pairwise_indexOf ws)

theorem counterItems_length (ws : List String) :
    (counterItems ws).length = (firstOccs ws).length := by
  simp [counterItems]

theorem mem_counterItems_of_mem (ws : List String) {w : String} (hw : w ∈ ws) :
    (w, ws.count w) ∈ counterItems ws :=
  List.mem_map.2 ⟨w, (mem_firstOccs w ws).2 hw, rfl⟩

/-! ## Properties of the chunking function -/

theorem chunkListF_fuel_irrel (B : Nat) :
    ∀ (f1 f2 : Nat) (l : List α), l.length ≤ f1 → l.length ≤ f2 →
      chunkListF B f1 l = chunkListF B f2 l := by
  intro f1
  induction f1 with
  | zero =>
    intro f2 l h1 _
    have : l = [] := List.length_eq_zero.1 (by omega)
    subst this
    cases f2 <;> rfl
  | succ f1 ih =>
    intro f2 l h1 h2
    cases l with
    | nil => cases f2 <;> rfl
    | cons c cs =>
      cases f2 with
      | zero => simp at h2
      | succ f2 =>
        simp only [chunkListF]
        congr 1
        refine ih f2 (cs.drop (B - 1)) ?_ ?_ <;>
          · simp only [List.length_drop]
            simp only [List.length_cons] at h1 h2
            omega

theorem chunkList_nil (B : Nat) : chunkList B ([] : List α) = [] := rfl

theorem chunkList_cons (B : Nat) (c : α) (cs : List α) :
    chunkList B (c :: cs)
      = (c :: cs.take (B - 1)) :: chunkList B (cs.drop (B - 1)) := by
  show chunkListF B (cs.length + 1) (c :: cs)
      = (c :: cs.take (B - 1)) :: chunkListF B (cs.drop (B - 1)).length (cs.drop (B - 1))
  simp only [chunkListF]
  congr 1
  refine chunkListF_fuel_irrel B cs.length _ (cs.drop (B - 1)) ?_ ?_ <;>
    simp [List.length_drop]

theorem chunkList_mem_ne_nil (B : Nat) (l : List α) :
    ∀ c ∈ chunkList B l, c ≠ [] := by
  suffices h : ∀ (n : Nat) (l : List α), l.length ≤ n →
      ∀ c ∈ chunkList B l, c ≠ [] by
    exact h l.length l le_rfl
  intro n
  induction n with
  | zero =>
    intro l hl
    have : l = [] := List.length_eq_zero.1 (by omega)
    simp [this, chunkList_nil]
  | succ n ih =>
    intro l hl
    cases l with
    | nil => simp [chunkList_nil]
    | cons c cs =>
      intro d hd
      rw [chunkList_cons] at hd
      rcases List.mem_cons.1 hd with rfl | hd
      · exact List.cons_ne_nil _ _
      · refine ih (cs.drop (B - 1)) ?_ d hd
        simp only [List.length_drop]
        simp only [List.length_cons] at hl
        omega

theorem chunkList_mem_length_le (B : Nat) (hB : 0 < B) (l : List α) :
    ∀ c ∈ chunkList B l, c.length ≤ B := by
  suffices h : ∀ (n : Nat) (l : List α), l.length ≤ n →
      ∀ c ∈ chunkList B l, c.length ≤ B by
    exact h l.length l le_rfl
  intro n
  induction n with
  | zero =>
    intro l hl
    have : l = [] := List.length_eq_zero.1 (by omega)
    simp [this, chunkList_nil]
  | succ n ih =>
    intro l hl
    cases l with
    | nil => simp [chunkList_nil]
    | cons c cs =>
      intro d hd
      rw [chunkList_cons] at hd
      rcases List.mem_cons.1 hd with rfl | hd
      · simp only [List.length_cons, List.length_take]
        omega
      · refine ih (cs.drop (B - 1)) ?_ d hd
        simp only [List.length_drop]
        simp only [List.length_cons] at hl
        omega

theorem chunkList_flatten (B : Nat) (l : List α) :
    (chunkList B l).flatten = l := by
  suffices h : ∀ (n : Nat) (l : List α), l.length ≤ n →
      (chunkList B l).flatten = l by
    exact h l.length l le_rfl
  intro n
  induction n with
  | zero =>
    intro l hl
    have : l = [] := List.length_eq_zero.1 (by omega)
    simp [this, chunkList_nil]
  | succ n ih =>
    intro l hl
    cases l with
    | nil => simp [chunkList_nil]
    | cons c cs =>
      rw [chunkList_cons]
      simp only [List.flatten_cons]
      rw [ih (cs.drop (B - 1)) (by
        simp only [List.length_drop]
        simp only [List.length_cons] at hl
        omega)]
      simp only [List.cons_append]
      rw [List.take_append_drop]

theorem chunkList_length_le (B : Nat) (hB : 0 < B) :
    ∀ (m : Nat) (l : List α), l.length ≤ m * B → (chunkList B l).length ≤ m := by
  intro m
  induction m with
  | zero =>
    intro l hl
    have : l = [] := List.length_eq_zero.1 (by omega)
    simp [this, chunkList_nil]
  | succ m ih =>
    intro l hl
    cases l with
    | nil => simp [chunkList_nil]
    | cons c cs =>
      rw [chunkList_cons]
      simp only [List.length_cons]
      have hlen : (cs.drop (B - 1)).length ≤ m * B := by
        simp only [List.length_drop]
        have := hl
        simp only [List.length_cons] at this
        have hmul : (m + 1) * B = m * B + B := by ring
        omega
      have := ih (cs.drop (B - 1)) hlen
      omega

/-! ## Claim C2: the minimum-length gate rejects length-50 input -/

theorem top_terms_length (text : String) (k : Nat) :
    (top_terms text k).length = min k (firstOccs (commonWords text)).length := by
  rw [top_terms, List.length_map, List.length_take,
    (sortDescBy_perm (Prod.snd) (counterItems (commonWords text))).length_eq,
    counterItems_length]

/-- C2: for every input text of raw length 50 (below the documented
minimum thresholds), `make_response_from_text` raises the client-facing
insufficient-content error (HTTP 422) and returns without reaching the
summarizer or the MCQ generator: in the embedding the error branch is
taken before `build_summary_blocks` or `build_mcq` is applied. -/
theorem C2_insufficient_length_gate (shuffle : Nat → List String → List String)
    (text : String) (h : text.length = 50) :
    make_response_from_text shuffle text = Except.error insufficientErr := by
  have hlt : (clean_text text).length < 80 := by
    have := clean_text_length_le text
    omega
  unfold make_response_from_text
  simp only [if_pos hlt]

/-- Witness for C2 at the concrete 50-character input `"aaa…a"`. -/
theorem C2_witness :
    make_response_from_text idShuffle
        "aaaaaaaaaaaaaaaaaaaaaaaaaaaaaaaaaaaaaaaaaaaaaaaaaa"
      = Except.error insufficientErr :=
  C2_insufficient_length_gate idShuffle
    "aaaaaaaaaaaaaaaaaaaaaaaaaaaaaaaaaaaaaaaaaaaaaaaaaa" (by decide)

/-! ## Claim C10: the gate is evaluated on the normalized text -/

/-- C10: `make_response_from_text` applies `clean_text` before the length
comparison with 80, so every input whose whitespace-collapsed trimmed
form has fewer than 80 characters is rejected with the insufficient-content
error, regardless of the raw length. -/
theorem C10_gate_on_normalized_text (shuffle : Nat → List String → List String)
    (text : String) (h : (clean_text text).length < 80) :
    make_response_from_text shuffle text = Except.error insufficientErr := by
  unfold make_response_from_text
  simp only [if_pos h]

/-- Witness for C10: a raw input of length 100 (above the threshold)
whose normalized form has length 5 is still rejected. -/
theorem C10_witness :
    (80 ≤ ("ab                                                                                                cd" : String).length
      ∧ (clean_text "ab                                                                                                cd").length < 80)
    ∧ make_response_from_text idShuffle
        "ab                                                                                                cd"
      = Except.error insufficientErr :=
  ⟨⟨by decide, by decide⟩,
    C10_gate_on_normalized_text idShuffle
      "ab                                                                                                cd" (by decide)⟩

/-! ## Claim C7: sparse vocabulary forces the fixed MCQ fallback -/

/-- C7: whenever the text has fewer than 6 distinct qualifying terms
(so the top-50 pool `top_terms text 50` has fewer than 6 entries),
`build_mcq` returns exactly the single fixed fallback question, for any
requested count and any random source: the fallback branch is taken
before sentence matching. -/
theorem C7_sparse_terms_fallback (shuffle : Nat → List String → List String)
    (text : String) (n : Nat)
    (h : (firstOccs (commonWords text)).length < 6) :
    build_mcq shuffle text n = [mcqFallback1] := by
  have hlen : (top_terms text 50).length < 6 := by
    rw [top_terms_length]
    omega
  unfold build_mcq
  simp only [if_pos hlen]

/-- Witness for C7 at the concrete input `"short."` (one qualifying term). -/
theorem C7_witness :
    build_mcq idShuffle "short." 6 = [mcqFallback1] :=
  C7_sparse_terms_fallback idShuffle "short." 6 (by decide)

/-! ## Claim C9: every segmented sentence has trimmed length above 30 -/

/-- C9: every sentence returned by `naive_sentences` has trimmed length
strictly greater than 30; fragments at or below the threshold never
appear (the sentences are returned already stripped, and stripping is
idempotent). -/
theorem C9_segment_min_length (text : String) :
    ∀ s ∈ naive_sentences text, 30 < (pyStrip s).length := by
  intro s hs
  unfold naive_sentences at hs
  rcases List.mem_map.1 hs with ⟨l, hl, rfl⟩
  rcases List.mem_filter.1 hl with ⟨hl', hlen⟩
  rcases List.mem_map.1 hl' with ⟨p, _, rfl⟩
  show 30 < (trimChars (trimChars p)).length
  rw [trimChars_idem]
  simpa using hlen

/-- Witness for C9 at a concrete segmented sentence. -/
theorem C9_witness :
    30 < (pyStrip "alpha bravo charlie delta echo foxtrot.").length :=
  C9_segment_min_length "alpha bravo charlie delta echo foxtrot."
    "alpha bravo charlie delta echo foxtrot." (by decide)

/-! ## Claim C8: idempotence of the normalizer -/

/-- No two adjacent whitespace characters. -/
def noTwoWs (a b : Char) : Prop :=
  ¬(isPySpace a = true ∧ isPySpace b = true)

theorem collapseAux_head_true (l : List Char) :
    ∀ c, (collapseAux true l).head? = some c → isPySpace c = false := by
  induction l with
  | nil => simp [collapseAux]
  | cons c cs ih =>
    intro d hd
    simp only [collapseAux] at hd
    by_cases h : isPySpace c
    · rw [if_pos h] at hd
      exact ih d hd
    · rw [if_neg h] at hd
      simp only [List.head?_cons, Option.some_inj] at hd
      subst hd
      exact Bool.eq_false_iff.2 h

theorem collapseAux_wsOnly (b : Bool) (l : List Char) :
    ∀ c ∈ collapseAux b l, isPySpace c = true → c = ' ' := by
  induction l generalizing b with
  | nil => simp [collapseAux]
  | cons c cs ih =>
    intro d hd hws
    simp only [collapseAux] at hd
    by_cases h : isPySpace c
    · rw [if_pos h] at hd
      cases b with
      | true => exact ih true d hd hws
      | false =>
        simp only [if_neg (by simp : ¬(false = true))] at hd
        rcases List.mem_cons.1 hd with rfl | hd
        · rfl
        · exact ih true d hd hws
    · rw [if_neg h] at hd
      rcases List.mem_cons.1 hd with rfl | hd
      · rw [hws] at h; exact absurd rfl h
      · exact ih false d hd hws

theorem collapseAux_chain' (b : Bool) (l : List Char) :
    (collapseAux b l).Chain' noTwoWs := by
  induction l generalizing b with
  | nil => simp [collapseAux]
  | cons c cs ih =>
    simp only [collapseAux]
    by_cases h : isPySpace c
    · rw [if_pos h]
      cases b with
      | true => exact ih true
      | false =>
        simp only [if_neg (by simp : ¬(false = true))]
        refine List.chain'_cons'.2 ⟨?_, ih true⟩
        intro y hy
        intro hcon
        rw [collapseAux_head_true cs y hy] at hcon
        exact absurd hcon.2 (by simp)
    · rw [if_neg h]
      refine List.chain'_cons'.2 ⟨?_, ih false⟩
      intro y _
      intro hcon
      exact h hcon.1

theorem collapseAux_true_eq_false (l : List Char)
    (h : ∀ c, l.head? = some c → isPySpace c = false) :
    collapseAux true l = collapseAux false l := by
  cases l with
  | nil => rfl
  | cons c cs =>
    have hc := h c rfl
    simp [collapseAux, hc]

theorem collapseAux_fix (l : List Char)
    (hws : ∀ c ∈ l, isPySpace c = true → c = ' ')
    (hch : l.Chain' noTwoWs) :
    collapseAux false l = l := by
  induction l with
  | nil => rfl
  | cons c cs ih =>
    rcases List.chain'_cons'.1 hch with ⟨hhead, htail⟩
    by_cases h : isPySpace c
    · have hc : c = ' ' := hws c (List.mem_cons_self ..) h
      have hcs_head : ∀ d, cs.head? = some d → isPySpace d = false := by
        intro d hd
        by_contra hd'
        exact hhead d hd ⟨h, by simpa using hd'⟩
      simp only [collapseAux, if_pos h]
      rw [collapseAux_true_eq_false cs hcs_head,
        ih (fun d hd => hws d (List.mem_cons_of_mem _ hd)) htail, hc]
      simp
    · simp only [collapseAux, if_neg h]
      rw [ih (fun d hd => hws d (List.mem_cons_of_mem _ hd)) htail]

theorem chain'_of_suffix {R : α → α → Prop} {l m : List α}
    (hm : m <:+ l) (h : l.Chain' R) : m.Chain' R := by
  rcases hm with ⟨t, rfl⟩
  exact (List.chain'_append.1 h).2.1

theorem trimChars_subset (l : List Char) : ∀ c ∈ trimChars l, c ∈ l := by
  intro c hc
  unfold trimChars at hc
  rw [List.mem_reverse] at hc
  have h1 := (List.dropWhile_sublist _).subset hc
  rw [List.mem_reverse] at h1
  exact (List.dropWhile_sublist _).subset h1

theorem trimChars_chain' (l : List Char) (h : l.Chain' noTwoWs) :
    (trimChars l).Chain' noTwoWs := by
  have hsymm : ∀ (m : List Char), m.Chain' noTwoWs → m.reverse.Chain' noTwoWs := by
    intro m hm
    rw [List.chain'_reverse]
    refine hm.imp ?_
    intro a b hab hcon
    exact hab ⟨hcon.2, hcon.1⟩
  have h1 : (l.dropWhile isPySpace).Chain' noTwoWs :=
    chain'_of_suffix ⟨l.takeWhile isPySpace, List.takeWhile_append_dropWhile ..⟩ h
  have h2 := hsymm _ h1
  have h3 : ((l.dropWhile isPySpace).reverse.dropWhile isPySpace).Chain' noTwoWs :=
    chain'_of_suffix
      ⟨(l.dropWhile isPySpace).reverse.takeWhile isPySpace,
        List.takeWhile_append_dropWhile ..⟩ h2
  exact hsymm _ h3

/-- C8: the text normalizer is idempotent: for every string `T`,
`clean_text (clean_text T) = clean_text T`. -/
theorem C8_clean_text_idempotent (t : String) :
    clean_text (clean_text t) = clean_text t := by
  show (⟨trimChars (collapseAux false (trimChars (collapseAux false t.data)))⟩ : String)
      = ⟨trimChars (collapseAux false t.data)⟩
  have hfix : collapseAux false (trimChars (collapseAux false t.data))
      = trimChars (collapseAux false t.data) := by
    refine collapseAux_fix _ ?_ ?_
    · intro c hc hws
      exact collapseAux_wsOnly false t.data c (trimChars_subset _ c hc) hws
    · exact trimChars_chain' _ (collapseAux_chain' false t.data)
  rw [hfix, trimChars_idem]

/-! ## Claim C5: ranking specification of the term extractor -/

theorem top_terms_eq_take_map (text : String) (k : Nat) :
    top_terms text k
      = ((sortDescBy Prod.snd (counterItems (commonWords text))).take k).map
          Prod.fst := rfl

theorem top_terms_nodup (text : String) (k : Nat) : (top_terms text k).Nodup := by
  have hperm :
      List.Perm
        ((sortDescBy Prod.snd (counterItems (commonWords text))).map Prod.fst)
        ((counterItems (commonWords text)).map Prod.fst) :=
    (sortDescBy_perm Prod.snd (counterItems (commonWords text))).map Prod.fst
  have h1 : ((sortDescBy Prod.snd (counterItems (commonWords text))).map
      Prod.fst).Nodup := by
    rw [counterItems_map_fst] at hperm
    exact hperm.nodup_iff.2 (nodup_firstOccs _)
  rw [top_terms_eq_take_map, List.map_take]
  exact List.Nodup.sublist (List.take_sublist _ _) h1

/-- C5: `top_terms text k` lists qualifying terms in non-increasing
frequency order with equal-frequency ties broken by first occurrence
(the index of the first occurrence in the filtered word sequence of the
text); the terms returned are distinct qualifying terms; exactly
`min k (number of distinct qualifying terms)` of them are returned;
every qualifying term left out has frequency at most that of every term
returned; and when fewer than `k` distinct qualifying terms exist, all
of them are returned. -/
theorem C5_top_terms_ranking (text : String) (k : Nat) :
    (top_terms text k).Pairwise (fun w v =>
        (commonWords text).count v ≤ (commonWords text).count w ∧
          ((commonWords text).count w = (commonWords text).count v →
            (commonWords text).indexOf w < (commonWords text).indexOf v))
    ∧ (top_terms text k).Nodup
    ∧ (∀ w ∈ top_terms text k, w ∈ commonWords text)
    ∧ (top_terms text k).length = min k (firstOccs (commonWords text)).length
    ∧ (∀ w ∈ commonWords text, w ∉ top_terms text k →
        ∀ v ∈ top_terms text k,
          (commonWords text).count w ≤ (commonWords text).count v)
    ∧ ((firstOccs (commonWords text)).length ≤ k →
        ∀ w ∈ commonWords text, w ∈ top_terms text k) := by
  have hSperm :
      List.Perm (sortDescBy Prod.snd (counterItems (commonWords text)))
        (counterItems (commonWords text)) :=
    sortDescBy_perm Prod.snd (counterItems (commonWords text))
  have hmemS : ∀ p ∈ sortDescBy Prod.snd (counterItems (commonWords text)),
      p.1 ∈ commonWords text ∧ p.2 = (commonWords text).count p.1 := fun p hp =>
    counterItems_mem (commonWords text) (hSperm.mem_iff.1 hp)
  have hstable :
      (sortDescBy Prod.snd (counterItems (commonWords text))).Pairwise
        (fun p q => q.2 ≤ p.2 ∧
          (p.2 = q.2 → (commonWords text).indexOf p.1 < (commonWords text).indexOf q.1)) :=
    sortDescBy_stable Prod.snd (fun p => (commonWords text).indexOf p.1)
      (counterItems (commonWords text)) (counterItems_pairwise (commonWords text))
  have htake := List.Pairwise.sublist
    (List.take_sublist k (sortDescBy Prod.snd (counterItems (commonWords text)))) hstable
  refine ⟨?_, top_terms_nodup text k, ?_, top_terms_length text k, ?_, ?_⟩
  · rw [top_terms_eq_take_map]
    refine List.pairwise_map.2 ?_
    refine htake.imp_of_mem ?_
    intro p q hp hq hrel
    have hp' := hmemS p ((List.take_sublist k _).subset hp)
    have hq' := hmemS q ((List.take_sublist k _).subset hq)
    constructor
    · rw [← hp'.2, ← hq'.2]
      exact hrel.1
    · intro he
      exact hrel.2 (by rw [hp'.2, hq'.2]; exact he)
  · intro w hw
    rw [top_terms_eq_take_map] at hw
    rcases List.mem_map.1 hw with ⟨p, hp, rfl⟩
    exact (hmemS p ((List.take_sublist k _).subset hp)).1
  · intro w hw hnot v hv
    have hwc : (w, (commonWords text).count w)
        ∈ sortDescBy Prod.snd (counterItems (commonWords text)) :=
      hSperm.mem_iff.2 (mem_counterItems_of_mem (commonWords text) hw)
    have hsorted :
        (sortDescBy Prod.snd (counterItems (commonWords text))).Pairwise
          (fun p q => q.2 ≤ p.2) :=
      sortDescBy_sorted Prod.snd (counterItems (commonWords text))
    rw [← List.take_append_drop k
      (sortDescBy Prod.snd (counterItems (commonWords text)))] at hsorted hwc
    rcases List.mem_append.1 hwc with hin | hin
    · exact absurd (by
        rw [top_terms_eq_take_map]
        exact List.mem_map.2 ⟨(w, (commonWords text).count w), hin, rfl⟩) hnot
    · rw [top_terms_eq_take_map] at hv
      rcases List.mem_map.1 hv with ⟨q, hq, rfl⟩
      have hcross := (List.pairwise_append.1 hsorted).2.2 q hq
        (w, (commonWords text).count w) hin
      have hq' := hmemS q ((List.take_sublist k _).subset hq)
      calc (commonWords text).count w = (w, (commonWords text).count w).2 := rfl
        _ ≤ q.2 := hcross
        _ = (commonWords text).count q.1 := hq'.2
  · intro hk w hw
    have hSlen : (sortDescBy Prod.snd (counterItems (commonWords text))).length
        = (firstOccs (commonWords text)).length := by
      rw [hSperm.length_eq, counterItems_length]
    have htk : (sortDescBy Prod.snd (counterItems (commonWords text))).take k
        = sortDescBy Prod.snd (counterItems (commonWords text)) :=
      List.take_of_length_le (by omega)
    rw [top_terms_eq_take_map, htk]
    exact List.mem_map.2
      ⟨(w, (commonWords text).count w),
        hSperm.mem_iff.2 (mem_counterItems_of_mem (commonWords text) hw), rfl⟩

/-- Witness for C5 at a concrete input: all distinct qualifying term
counts fit in the requested 3, and the output is the whole ranking. -/
theorem C5_witness :
    (firstOccs (commonWords "alpha beta alpha gamma beta alpha")).length ≤ 3
    ∧ ∀ w ∈ commonWords "alpha beta alpha gamma beta alpha",
        w ∈ top_terms "alpha beta alpha gamma beta alpha" 3 :=
  ⟨by decide,
    (C5_top_terms_ranking "alpha beta alpha gamma beta alpha" 3).2.2.2.2.2
      (by decide)⟩

/-! ## Claim C6: structure of block mode summarization -/

theorem enumFrom_pairwise_fst (n : Nat) (l : List α) :
    (List.enumFrom n l).Pairwise (fun p q => p.1 < q.1) := by
  induction l generalizing n with
  | nil => simp
  | cons x xs ih =>
    simp only [List.enumFrom]
    refine List.pairwise_cons.2 ⟨?_, ih (n + 1)⟩
    intro q hq
    have h := List.mem_enumFrom (show (q.1, q.2) ∈ List.enumFrom (n + 1) xs by
      simpa using hq)
    omega

theorem enum_pairwise_fst (l : List α) :
    (l.enum).Pairwise (fun p q => p.1 < q.1) :=
  enumFrom_pairwise_fst 0 l

theorem scoredOf_eq_map (text : String) :
    scoredOf text = (escoredOf text).map (fun x => (x.1, x.2.2)) := by
  rw [scoredOf, escoredOf, List.map_map]
  conv_lhs => rw [← List.enum_map_snd (naive_sentences text), List.map_map]
  rfl

theorem build_summary_blocks_of_ne (text : String) (M B : Nat)
    (h : naive_sentences text ≠ []) :
    build_summary_blocks text M B
      = ((chunkList B (((sortDescBy Prod.fst (scoredOf text)).take (M * B)).map
            Prod.snd)).take M).enum.map
          (fun p => ⟨"أفكار رئيسية #" ++ toString (p.1 + 1),
            p.2.map clean_text⟩) := by
  unfold build_summary_blocks
  rw [if_neg (by simp [List.isEmpty_iff, h])]

theorem topSel_length_le (text : String) (M B : Nat) :
    (((sortDescBy Prod.fst (scoredOf text)).take (M * B)).map Prod.snd).length
      ≤ M * B := by
  rw [List.length_map, List.length_take]
  omega

/-- C6: in block mode the summarizer takes the top `M × B` sentences by
descending score (stably, so equal scores keep original document order),
chunks them sequentially into blocks of at most `B` bullets each, titles
block `j` with running index `j+1`, and emits at most `M` blocks; the
flattened bullets are exactly the cleaned selected sentences in selection
order, and every unselected sentence scores at most every selected one. -/
theorem C6_block_mode (text : String) (M B : Nat) (hB : 0 < B)
    (hne : naive_sentences text ≠ []) :
    (build_summary_blocks text M B).length ≤ M
    ∧ (∀ j (hj : j < (build_summary_blocks text M B).length),
        ((build_summary_blocks text M B).get ⟨j, hj⟩).title
          = "أفكار رئيسية #" ++ toString (j + 1))
    ∧ (∀ b ∈ build_summary_blocks text M B,
        b.bullets ≠ [] ∧ b.bullets.length ≤ B)
    ∧ ((build_summary_blocks text M B).map SummaryBlock.bullets).flatten
        = (((sortDescBy Prod.fst (scoredOf text)).take (M * B)).map
            Prod.snd).map clean_text
    ∧ (sortDescBy Prod.fst (scoredOf text)).Pairwise (fun p q => q.1 ≤ p.1)
    ∧ (∀ q ∈ (sortDescBy Prod.fst (scoredOf text)).take (M * B),
        ∀ p ∈ (sortDescBy Prod.fst (scoredOf text)).drop (M * B), p.1 ≤ q.1)
    ∧ sortDescBy Prod.fst (scoredOf text)
        = (sortDescBy (fun x => x.1) (escoredOf text)).map (fun x => (x.1, x.2.2))
    ∧ (sortDescBy (fun x => x.1) (escoredOf text)).Pairwise
        (fun p q => q.1 ≤ p.1 ∧ (p.1 = q.1 → p.2.1 < q.2.1)) := by
  have heq := build_summary_blocks_of_ne text M B hne
  have hchunks_le : (chunkList B (((sortDescBy Prod.fst (scoredOf text)).take
      (M * B)).map Prod.snd)).length ≤ M :=
    chunkList_length_le B hB M _ (topSel_length_le text M B)
  refine ⟨?_, ?_, ?_, ?_, sortDescBy_sorted Prod.fst (scoredOf text), ?_, ?_, ?_⟩
  · rw [heq, List.length_map, List.enum_length, List.length_take]
    omega
  · intro j hj
    simp only [heq, List.get_eq_getElem, List.getElem_map, List.getElem_enum]
  · intro b hb
    rw [heq] at hb
    rcases List.mem_map.1 hb with ⟨p, hp, rfl⟩
    have hp2 : p.2 ∈ (chunkList B (((sortDescBy Prod.fst (scoredOf text)).take
        (M * B)).map Prod.snd)).take M := by
      have := List.mem_map_of_mem Prod.snd hp
      rwa [List.enum_map_snd] at this
    have hmem := (List.take_sublist M _).subset hp2
    constructor
    · simp only [ne_eq, List.map_eq_nil_iff]
      exact chunkList_mem_ne_nil B _ _ hmem
    · simp only [List.length_map]
      exact chunkList_mem_length_le B hB _ _ hmem
  · rw [heq]
    rw [List.map_map]
    have h1 : ((chunkList B (((sortDescBy Prod.fst (scoredOf text)).take
        (M * B)).map Prod.snd)).take M)
        = chunkList B (((sortDescBy Prod.fst (scoredOf text)).take
            (M * B)).map Prod.snd) :=
      List.take_of_length_le hchunks_le
    have h2 : (SummaryBlock.bullets ∘ fun p : Nat × List String =>
        (⟨"أفكار رئيسية #" ++ toString (p.1 + 1), p.2.map clean_text⟩ :
          SummaryBlock)) = (fun c => c.map clean_text) ∘ Prod.snd := rfl
    rw [h2, ← List.map_map, List.enum_map_snd, h1, ← List.map_flatten,
      chunkList_flatten]
  · intro q hq p hp
    have hsorted := sortDescBy_sorted Prod.fst (scoredOf text)
    rw [← List.take_append_drop (M * B)
      (sortDescBy Prod.fst (scoredOf text))] at hsorted
    exact (List.pairwise_append.1 hsorted).2.2 q hq p hp
  · rw [scoredOf_eq_map]
    exact sortDescBy_map (fun x => x.1) Prod.fst (fun x => (x.1, x.2.2))
      (fun a => rfl) (escoredOf text)
  · refine sortDescBy_stable (fun x => x.1) (fun x => x.2.1) (escoredOf text) ?_
    rw [escoredOf]
    refine List.pairwise_map.2 ?_
    exact enum_pairwise_fst (naive_sentences text)

/-- Witness for C6 at a concrete two-sentence input. -/
theorem C6_witness :
    (build_summary_blocks
        "aa bb cc dd ee ff gg hh ii jj kk. wonderful wonderful wonderful wonderful yes."
        4 4).length ≤ 4 :=
  (C6_block_mode
    "aa bb cc dd ee ff gg hh ii jj kk. wonderful wonderful wonderful wonderful yes."
    4 4 (by decide) (by decide)).1

/-! ## Claim C1: the first sentence is NOT unconditionally retained -/

/-- C1 counterexample: for the input below, the first segmented sentence
scores 0 against the term set while the second scores 4, so the sort by
descending score puts the second sentence first, and the opening line of
the summary is not the first segmented sentence. -/
theorem C1_counterexample :
    (naive_sentences
        "aa bb cc dd ee ff gg hh ii jj kk. wonderful wonderful wonderful wonderful yes.").head?
      = some "aa bb cc dd ee ff gg hh ii jj kk."
    ∧ ((build_summary_blocks
        "aa bb cc dd ee ff gg hh ii jj kk. wonderful wonderful wonderful wonderful yes."
        4 4).head?.bind (fun b => b.bullets.head?))
      = some "wonderful wonderful wonderful wonderful yes."
    ∧ ("wonderful wonderful wonderful wonderful yes." : String)
      ≠ "aa bb cc dd ee ff gg hh ii jj kk." := by
  refine ⟨by decide, by decide, by decide⟩

/-- C1 amended: the summarizer opens with the (cleaned) first segmented
sentence exactly under the proviso the original claim omits — when the
first sentence's term score is at least the score of every other
sentence.  (Stability of the sort then keeps it in front; a
higher-scoring later sentence displaces it, as the counterexample
shows.) -/
theorem C1_first_sentence_when_max (text s0 : String) (rest : List String)
    (hs : naive_sentences text = s0 :: rest)
    (hmax : ∀ s ∈ rest,
      scoreOf (top_terms text 30) s ≤ scoreOf (top_terms text 30) s0) :
    ∃ bs tail, build_summary_blocks text 4 4
      = ⟨"أفكار رئيسية #1", clean_text s0 :: bs⟩ :: tail := by
  have heq := build_summary_blocks_of_ne text 4 4 (by
    rw [hs]; exact List.cons_ne_nil _ _)
  have hscored : scoredOf text = (scoreOf (top_terms text 30) s0, s0)
      :: rest.map (fun s => (scoreOf (top_terms text 30) s, s)) := by
    rw [scoredOf, hs, List.map_cons]
  have hmax' : ∀ q ∈ rest.map (fun s => (scoreOf (top_terms text 30) s, s)),
      Prod.fst q ≤ Prod.fst (scoreOf (top_terms text 30) s0, s0) := by
    intro q hq
    rcases List.mem_map.1 hq with ⟨s, hsmem, rfl⟩
    exact hmax s hsmem
  obtain ⟨rest', hsort⟩ := sortDescBy_cons_of_max Prod.fst _ _ hmax'
  rw [hscored, hsort] at heq
  have e1 : (((scoreOf (top_terms text 30) s0, s0) :: rest').take (4 * 4)).map
      Prod.snd = s0 :: (rest'.take 15).map Prod.snd := rfl
  rw [e1, chunkList_cons] at heq
  have e2 : ∀ (c : List String) (cs : List (List String)),
      (c :: cs).take 4 = c :: cs.take 3 := fun c cs => rfl
  rw [e2] at heq
  have e3 : ∀ (c : List String) (cs : List (List String)),
      (c :: cs).enum = (0, c) :: List.enumFrom 1 cs := fun c cs => rfl
  rw [e3, List.map_cons] at heq
  simp only [Nat.zero_add, List.map_cons] at heq
  have e4 : ("أفكار رئيسية #" ++ toString (1 : Nat) : String) = "أفكار رئيسية #1" := rfl
  rw [e4] at heq
  exact ⟨_, _, heq⟩

/-- Witness for the amended C1: the first sentence of this input carries
the maximal score and opens the summary. -/
theorem C1_witness :
    ∃ bs tail, build_summary_blocks
        "wonderful wonderful wonderful wonderful yes. aa bb cc dd ee ff gg hh ii jj kk."
        4 4
      = ⟨"أفكار رئيسية #1",
          clean_text "wonderful wonderful wonderful wonderful yes." :: bs⟩ :: tail :=
  C1_first_sentence_when_max
    "wonderful wonderful wonderful wonderful yes. aa bb cc dd ee ff gg hh ii jj kk."
    "wonderful wonderful wonderful wonderful yes."
    ["aa bb cc dd ee ff gg hh ii jj kk."]
    (by decide) (by decide)

/-! ## Claim C3: totality and fallbacks of the generators -/

theorem mcqLoop_eq_nil_of_no_match (shuffle : Nat → List String → List String)
    (sents terms : List String) (n : Nat) :
    ∀ (ts used : List String) (i c : Nat),
      (∀ t ∈ ts, sents.find? (fun s => wholeWordSearch t s) = none) →
      mcqLoop shuffle sents terms n ts used i c = [] := by
  intro ts
  induction ts with
  | nil => intro used i c _; rfl
  | cons t ts ih =>
    intro used i c hno
    rw [mcqLoop]
    by_cases hu : used.contains t
    · rw [if_pos hu]
      exact ih used i c (fun r hr => hno r (List.mem_cons_of_mem _ hr))
    · rw [if_neg hu, hno t (List.mem_cons_self ..)]
      exact ih used i c (fun r hr => hno r (List.mem_cons_of_mem _ hr))

theorem build_summary_blocks_ne_nil (text : String) :
    build_summary_blocks text 4 4 ≠ [] := by
  by_cases h : naive_sentences text = []
  · unfold build_summary_blocks
    rw [if_pos (by simp [List.isEmpty_iff, h])]
    simp
  · rw [build_summary_blocks_of_ne text 4 4 h]
    have htop : (((sortDescBy Prod.fst (scoredOf text)).take (4 * 4)).map
        Prod.snd) ≠ [] := by
      rw [← List.length_pos, List.length_map, List.length_take,
        (sortDescBy_perm Prod.fst (scoredOf text)).length_eq, scoredOf,
        List.length_map]
      have := List.length_pos.2 h
      omega
    rcases List.exists_cons_of_ne_nil htop with ⟨c, cs, hcc⟩
    rw [hcc, chunkList_cons]
    have e2 : ∀ (d : List String) (ds : List (List String)),
        (d :: ds).take 4 = d :: ds.take 3 := fun d ds => rfl
    rw [e2]
    simp [List.enum_cons]

theorem build_mcq_ne_nil (shuffle : Nat → List String → List String)
    (text : String) (n : Nat) : build_mcq shuffle text n ≠ [] := by
  unfold build_mcq
  by_cases h : (top_terms text 50).length < 6
  · rw [if_pos h]; simp
  · rw [if_neg h]
    by_cases h2 : (mcqLoop shuffle (naive_sentences text) (top_terms text 50) n
        (top_terms text 50) [] 0 0).isEmpty
    · rw [if_pos h2]; simp
    · rw [if_neg h2]
      exact List.isEmpty_eq_false.1 (by simpa using h2)

/-- C3: on every input string, `build_summary_blocks` and `build_mcq`
return a non-empty result (totality: the embedding is a total function,
matching the absence of raising paths in the source); when no sentence
passes the segmentation filter the summarizer returns its single
explanatory fallback block; when fewer than 6 terms exist the MCQ
generator returns its first fixed fallback; and when no term matches any
sentence it returns its second fixed fallback. -/
theorem C3_total_with_fallbacks (shuffle : Nat → List String → List String)
    (text : String) :
    build_summary_blocks text 4 4 ≠ []
    ∧ build_mcq shuffle text 6 ≠ []
    ∧ (naive_sentences text = [] → build_summary_blocks text 4 4 = [noteBlock])
    ∧ ((top_terms text 50).length < 6 → build_mcq shuffle text 6 = [mcqFallback1])
    ∧ (6 ≤ (top_terms text 50).length →
        (∀ t ∈ top_terms text 50, ∀ s ∈ naive_sentences text,
          wholeWordSearch t s = false) →
        build_mcq shuffle text 6 = [mcqFallback2]) := by
  refine ⟨build_summary_blocks_ne_nil text, build_mcq_ne_nil shuffle text 6,
    ?_, ?_, ?_⟩
  · intro h
    unfold build_summary_blocks
    rw [if_pos (by simp [List.isEmpty_iff, h])]
  · intro h
    unfold build_mcq
    rw [if_pos h]
  · intro hlen hno
    have hnil : mcqLoop shuffle (naive_sentences text) (top_terms text 50) 6
        (top_terms text 50) [] 0 0 = [] := by
      refine mcqLoop_eq_nil_of_no_match shuffle _ _ 6 _ _ 0 0 ?_
      intro t ht
      rw [List.find?_eq_none]
      intro s hs
      simp [hno t ht s hs]
    unfold build_mcq
    rw [if_neg (by omega), hnil]
    rfl

/-- Witness for C3 at the empty input: no sentences and no terms, so both
generators produce their fixed fallbacks (hence non-empty results). -/
theorem C3_witness :
    build_summary_blocks "" 4 4 = [noteBlock]
    ∧ build_mcq idShuffle "" 6 = [mcqFallback1] :=
  ⟨(C3_total_with_fallbacks idShuffle "").2.2.1 (by decide),
    (C3_total_with_fallbacks idShuffle "").2.2.2.1 (by decide)⟩

/-! ## Claim C4: the MCQ answer invariant -/

theorem get?_indexOf_self (l : List String) (t : String) (h : t ∈ l) :
    l.get? (l.indexOf t) = some t := by
  induction l with
  | nil => cases h
  | cons a as ih =>
    by_cases hat : a = t
    · subst hat
      rw [List.indexOf_cons_self]
      rfl
    · rw [List.indexOf_cons_ne _ hat]
      show as.get? (as.indexOf t) = some t
      refine ih ?_
      rcases List.mem_cons.1 h with h1 | h1
      · exact absurd h1.symm hat
      · exact h1

theorem filter_ne_length_ge (terms : List String) (t : String)
    (hnd : terms.Nodup) :
    terms.length ≤ (terms.filter (fun d => d != t)).length + 1 := by
  have hsplit := List.length_eq_countP_add_countP (fun d => d != t) terms
  have hcount : List.countP (fun a => decide ¬(a != t) = true) terms
      = List.countP (fun a => a == t) terms := by
    refine List.countP_congr ?_
    intro a _
    simp [bne]
  have hle : List.countP (fun a => a == t) terms ≤ 1 := by
    have h1 := List.nodup_iff_count_le_one.1 hnd t
    simpa [List.count] using h1
  rw [List.countP_eq_length_filter] at hsplit
  omega

theorem mcqLoop_mem_spec (shuffle : Nat → List String → List String)
    (hperm : ∀ i l, List.Perm (shuffle i l) l)
    (sents terms : List String) (n : Nat)
    (hlen : 6 ≤ terms.length) (hnd : terms.Nodup) :
    ∀ (ts used : List String) (i c : Nat),
      ∀ q ∈ mcqLoop shuffle sents terms n ts used i c,
        ∃ t, q.explain = some ("المصطلح المناسب في السياق هو «" ++ t ++ "».")
          ∧ q.choices.length = 4
          ∧ q.answer < 4
          ∧ q.choices.get? q.answer = some t
          ∧ q.choices.count t = 1 := by
  intro ts
  induction ts with
  | nil =>
    intro used i c q hq
    simp [mcqLoop] at hq
  | cons t ts ih =>
    intro used i c q hq
    rw [mcqLoop] at hq
    by_cases hu : used.contains t
    · rw [if_pos hu] at hq
      exact ih used i c q hq
    · rw [if_neg hu] at hq
      cases hfind : sents.find? (fun s => wholeWordSearch t s) with
      | none =>
        simp only [hfind] at hq
        exact ih used i c q hq
      | some sent =>
        simp only [hfind] at hq
        have hd3 : ∀ d ∈ ((shuffle c ((terms.filter (fun d => d != t)).take
            12)).take 3), d ≠ t := by
          intro d hd
          have h1 := (List.take_sublist 3 _).subset hd
          have h2 := (hperm c _).mem_iff.1 h1
          have h3 := (List.take_sublist 12 _).subset h2
          have h4 := (List.mem_filter.1 h3).2
          simpa using h4
        have hd3len : ((shuffle c ((terms.filter (fun d => d != t)).take
            12)).take 3).length = 3 := by
          rw [List.length_take, (hperm c _).length_eq, List.length_take]
          have := filter_ne_length_ge terms t hnd
          omega
        have hcperm := hperm (c + 1)
          (t :: (shuffle c ((terms.filter (fun d => d != t)).take 12)).take 3)
        have htmem : t ∈ shuffle (c + 1)
            (t :: (shuffle c ((terms.filter (fun d => d != t)).take 12)).take 3) :=
          hcperm.mem_iff.2 (List.mem_cons_self ..)
        have hclen : (shuffle (c + 1)
            (t :: (shuffle c ((terms.filter (fun d => d != t)).take
              12)).take 3)).length = 4 := by
          rw [hcperm.length_eq, List.length_cons, hd3len]
        have hccount : (shuffle (c + 1)
            (t :: (shuffle c ((terms.filter (fun d => d != t)).take
              12)).take 3)).count t = 1 := by
          rw [hcperm.count_eq t, List.count_cons_self,
            List.count_eq_zero.2 (fun hmem => hd3 t hmem rfl)]
        have hans : (shuffle (c + 1)
            (t :: (shuffle c ((terms.filter (fun d => d != t)).take
              12)).take 3)).indexOf t < 4 := by
          rw [← hclen]
          exact List.indexOf_lt_length.2 htmem
        by_cases hbreak : n ≤ i + 1
        · rw [if_pos hbreak] at hq
          rcases List.mem_cons.1 hq with rfl | hq
          · exact ⟨t, rfl, hclen, hans, get?_indexOf_self _ t htmem, hccount⟩
          · cases hq
        · rw [if_neg hbreak] at hq
          rcases List.mem_cons.1 hq with rfl | hq
          · exact ⟨t, rfl, hclen, hans, get?_indexOf_self _ t htmem, hccount⟩
          · exact ih (t :: used) (i + 1) (c + 2) q hq

/-- C4: every question `build_mcq` produces from the term pool (i.e. not
one of the two fixed fallbacks) names a term in its explanation such that
`choices` has exactly four entries, the answer index is in range,
`choices[answer]` is that term, and the term occurs exactly once in
`choices` — assuming the injected shuffles are permutations, as
`random.shuffle` always is. -/
theorem C4_mcq_answer_invariant (shuffle : Nat → List String → List String)
    (hperm : ∀ i l, List.Perm (shuffle i l) l) (text : String) (n : Nat) :
    ∀ q ∈ build_mcq shuffle text n, q ≠ mcqFallback1 → q ≠ mcqFallback2 →
      ∃ t, q.explain = some ("المصطلح المناسب في السياق هو «" ++ t ++ "».")
        ∧ q.choices.length = 4
        ∧ q.answer < 4
        ∧ q.choices.get? q.answer = some t
        ∧ q.choices.count t = 1 := by
  intro q hq h1 h2
  unfold build_mcq at hq
  by_cases hlen : (top_terms text 50).length < 6
  · rw [if_pos hlen] at hq
    simp only [List.mem_singleton] at hq
    exact absurd hq h1
  · rw [if_neg hlen] at hq
    by_cases hq0 : (mcqLoop shuffle (naive_sentences text) (top_terms text 50)
        n (top_terms text 50) [] 0 0).isEmpty
    · rw [if_pos hq0] at hq
      simp only [List.mem_singleton] at hq
      exact absurd hq h2
    · rw [if_neg hq0] at hq
      exact mcqLoop_mem_spec shuffle hperm (naive_sentences text)
        (top_terms text 50) n (by omega) (top_terms_nodup text 50)
        (top_terms text 50) [] 0 0 q hq

/-- Witness for C4: the first question generated for a concrete input
under the identity shuffle satisfies the invariant. -/
theorem C4_witness :
    ∃ t, (⟨"اختر المصطلح الذي يكمّل الفكرة: «alpha bravo charlie delta echo foxtrot.»",
        ["alpha", "bravo", "charlie", "delta"], 0,
        some "المصطلح المناسب في السياق هو «alpha»."⟩ : MCQ).explain
          = some ("المصطلح المناسب في السياق هو «" ++ t ++ "».")
      ∧ (["alpha", "bravo", "charlie", "delta"] : List String).length = 4
      ∧ (0 : Nat) < 4
      ∧ (["alpha", "bravo", "charlie", "delta"] : List String).get? 0 = some t
      ∧ (["alpha", "bravo", "charlie", "delta"] : List String).count t = 1 :=
  C4_mcq_answer_invariant idShuffle (fun _ l => List.Perm.refl l)
    "alpha bravo charlie delta echo foxtrot." 6
    ⟨"اختر المصطلح الذي يكمّل الفكرة: «alpha bravo charlie delta echo foxtrot.»",
      ["alpha", "bravo", "charlie", "delta"], 0,
      some "المصطلح المناسب في السياق هو «alpha»."⟩
    (by decide) (by decide) (by decide)
